import Mathlib

/-!
Layout analysis of struct types (aligncheck).

A shallow embedding of `cmd/aligncheck/aligncheck.go`, the body of the loop of `main` that
judges one struct type (lines 96-147) and the comparator `fieldList.Less` (lines 159-171).

Conventions of the embedding.

* Go `int` is the 64-bit signed integer (the platforms where `unsafe.Sizeof(int(0))` is 8).  A
  value is an integer of `Int`; `+` and `-` wrap around modulo 2^64 (`goAdd`, `goSub`), as
  `minSize += typeSize` and the two rounding steps of `main` do.
* Go `%` truncates towards zero (`Int.tmod`) and panics when the divisor is zero; a panic is the
  value `none`.
* A Go `string` is compared byte by byte; on identifiers (valid UTF-8) that is the lexicographic
  order of the code points, `String.data` compared as a list of characters.
* `types.StdSizes` and `sort.Sort` are libraries outside this repository.  The struct under
  analysis is handed over as the values the program reads from `stdSizes`; the two library
  algorithms the properties speak about are modelled separately and marked as such.
-/

namespace aligncheck

/-! ## Data model -/

/-- The `structField` of lines 39-42: a field name and the size of the field's type. -/
structure structField where
  name : String
  size : Int
deriving DecidableEq

/-- The `fieldList` of line 44: a slice of `structField`. -/
abbrev fieldList := List structField

/-- One field of a `*types.Struct` as seen through `stdSizes`: `field.Name()`,
`stdSizes.Sizeof(field.Type())` and `stdSizes.Alignof(field.Type())`.  `main` reads the first
two; the alignment is what the layout rule of the type checker uses. -/
structure Var where
  name : String
  typeSize : Int
  typeAlign : Int
deriving DecidableEq

/-- A `*types.Struct` as seen through `stdSizes`: `stdSizes.Alignof(strukt)`,
`stdSizes.Sizeof(strukt)` and the fields `strukt.Field(0)`, ..., in declaration order. -/
structure Struct where
  alignof : Int
  sizeof : Int
  fields : List Var
deriving DecidableEq

/-- What `main` computes for a struct it reports (lines 118-147): the size the struct could have,
the size it currently has and the fields in the recommended order.  The printed line always
carries the two sizes; the recommended order is appended to it under the flag `-v`. -/
structure Finding where
  minSize : Int
  structSize : Int
  fields : fieldList
deriving DecidableEq

/-! ## The code of `main` -/

/-- The largest `int`, `math.MaxInt64` = 2^63 - 1. -/
def maxInt : Int := 9223372036854775807

/-- Two's-complement wrap-around of a 64-bit `int`: the representative of `x` modulo 2^64 in the
range from -2^63 to 2^63 - 1. -/
def wrapInt (x : Int) : Int :=
  (x + 9223372036854775808) % 18446744073709551616 - 9223372036854775808

/-- Go `x + y` on `int`. -/
def goAdd (x y : Int) : Int := wrapInt (x + y)

/-- Go `x - y` on `int`. -/
def goSub (x y : Int) : Int := wrapInt (x - y)

/-- Go `x % y` on `int`: the truncated remainder, a run-time panic (`none`) when `y` is zero. -/
def goRem (x y : Int) : Option Int :=
  if y = 0 then none else some (x.tmod y)

/-- The rounding step written twice in `main` (lines 98-100 and 114-116):
`if v%structAlign != 0 { v += structAlign - v%structAlign }`. -/
def roundUp (v structAlign : Int) : Option Int :=
  match goRem v structAlign with
  | none => none
  | some r =>
    if r ≠ 0 then
      match goRem v structAlign with
      | none => none
      | some r2 => some (goAdd v (goSub structAlign r2))
    else some v

/-- Lines 96-100: `structSize`, the oracle size rounded to the struct alignment. -/
def structSizeOf (strukt : Struct) : Option Int :=
  roundUp strukt.sizeof strukt.alignof

/-- Lines 102-113: the loop over the fields; it appends one `structField` per field and adds the
field's size to `minSize`.  The state is the pair `(fields, minSize)`. -/
def collect (vars : List Var) : fieldList × Int :=
  vars.foldl
    (fun acc v => (acc.1 ++ [structField.mk v.name v.typeSize], goAdd acc.2 v.typeSize))
    ([], 0)

/-- Lines 102-116: `minSize`, the sum of the field sizes rounded to the struct alignment. -/
def minSizeOf (strukt : Struct) : Option Int :=
  roundUp (collect strukt.fields).2 strukt.alignof

/-- The `fieldList.Less` of lines 160-170.  The indices are positions of the slice. -/
def fieldList.Less (fl : fieldList) (i j : Fin fl.length) : Bool :=
  if (fl.get i).size > (fl.get j).size then true
  else if (fl.get i).size < (fl.get j).size then false
  else if (fl.get i).name.data < (fl.get j).name.data then true
  else false

/-- The comparison `Less` makes between two fields: `Less(0, 1)` on the slice `[x, y]`. -/
def lessField (x y : structField) : Bool :=
  fieldList.Less [x, y] ⟨0, by simp⟩ ⟨1, by simp⟩

/-- One insertion into an arranged list: `x` goes before the first field that is not `Less`
than it. -/
def insertField (x : structField) : fieldList → fieldList
  | [] => [x]
  | y :: ys => if lessField y x then y :: insertField x ys else x :: y :: ys

/-- Modelled from the spec: `sort.Sort` of the Go standard library, which is not part of this
repository ("sort fields by descending size; break ties by ascending name").  It is an insertion
sort driven by `fieldList.Less`; `sortSort_unique` shows that every arrangement of the fields
without an inversion under `Less` is this one, so the choice of algorithm does not matter. -/
def sortSort : fieldList → fieldList
  | [] => []
  | x :: xs => insertField x (sortSort xs)

/-- Lines 96-147 for one struct: `none` is a panic, `some none` no report, `some (some f)` the
report `f`. -/
def checkStruct (strukt : Struct) : Option (Option Finding) :=
  match structSizeOf strukt with
  | none => none
  | some structSize =>
    match minSizeOf strukt with
    | none => none
    | some minSize =>
      if minSize ≠ structSize then
        some (some (Finding.mk minSize structSize (sortSort (collect strukt.fields).1)))
      else some none

/-! ## The layout rule of the type checker -/

/-- Modelled from the spec: "the next offset that is a multiple of its alignment", the least
multiple of `a` that is at least `x` (for `a >= 1`).  It belongs to `go/types`. -/
def alignUp (x a : Int) : Int :=
  (x + a - 1) / a * a

/-- Modelled from the spec: the offsets the layout rule gives to the fields in the order of the
list, starting at offset `o`: each field at the next multiple of its alignment after the end of
the previous one.  It belongs to `go/types`. -/
def abiOffsets : Int → List Var → List Int
  | _, [] => []
  | o, v :: vs => alignUp o v.typeAlign :: abiOffsets (alignUp o v.typeAlign + v.typeSize) vs

/-- Modelled from the spec: the end of the last field under the layout rule. -/
def abiEnd : Int → List Var → Int
  | o, [] => o
  | o, v :: vs => abiEnd (alignUp o v.typeAlign + v.typeSize) vs

/-- Modelled from the spec: the padded size of a record laid out in the order of the list, "the
total rounded up to a multiple of" the record alignment `a`. -/
def abiSize (vars : List Var) (a : Int) : Int :=
  alignUp (abiEnd 0 vars) a

/-- The offsets of the fields when no padding stands between them: running sums of the sizes. -/
def packedOffsets : Int → List Var → List Int
  | _, [] => []
  | o, v :: vs => o :: packedOffsets (o + v.typeSize) vs

/-- Modelled from the spec: the alignment of a record, "the maximum of its fields' alignments",
1 for a record without fields. -/
def structAlign (vars : List Var) : Int :=
  vars.foldl (fun m v => max m v.typeAlign) 1

/-- A scalar field: its alignment is its size, capped by the maximal alignment. -/
def scalarVar (maxAlign : Int) (f : structField) : Var :=
  Var.mk f.name f.size (min f.size maxAlign)

/-- No inversion: no field stands before a field that is `Less` than it. -/
def arranged (fl : fieldList) : Prop :=
  fl.Pairwise (fun x y => lessField y x = false)

/-! ## Sample records -/

/-- The record of the concrete scenario: fields a:1, b:8, c:1 declared in that order, alignment
8, padded size 24. -/
def sampleStruct : Struct :=
  Struct.mk 8 24 [Var.mk "a" 1 1, Var.mk "b" 8 8, Var.mk "c" 1 1]

/-- The fields of `sampleStruct` in the recommended order. -/
def sampleOrder : List Var :=
  [Var.mk "b" 8 8, Var.mk "a" 1 1, Var.mk "c" 1 1]

/-- The record of the no-finding scenario: fields x:8, y:8, alignment 8, size 16. -/
def packedStruct : Struct :=
  Struct.mk 8 16 [Var.mk "x" 8 8, Var.mk "y" 8 8]

/-- A record whose field sizes 2^62, 2^62 and 8 add up to more than the largest `int`; the oracle
size is the -1 by which `go/types` reports a size it cannot represent. -/
def overflowStruct : Struct :=
  Struct.mk 8 (-1)
    [Var.mk "x" 4611686018427387904 8, Var.mk "y" 4611686018427387904 8, Var.mk "z" 8 8]

/-- The record `struct { a bool; x int64; b [1<<63 - 17]byte }`: sizes 1, 8 and 2^63 - 17,
alignment 8, oracle size 2^63 - 1 (the end of the last field). -/
def hugeStruct : Struct :=
  Struct.mk 8 9223372036854775807
    [Var.mk "a" 1 1, Var.mk "x" 8 8, Var.mk "b" 9223372036854775791 1]

/-- Two scalar fields of size 2^62 under the maximal alignment 8. -/
def hugeScalars : List Var :=
  [Var.mk "x" 4611686018427387904 8, Var.mk "y" 4611686018427387904 8]

/-! ## Arithmetic of the rounding step -/

theorem alignUp_eq (x a : Int) : alignUp x a = (x + a - 1) - (x + a - 1) % a := by
  unfold alignUp
  have h := Int.emod_add_ediv (x + a - 1) a
  have hc : (x + a - 1) / a * a = a * ((x + a - 1) / a) := Int.mul_comm _ _
  omega

theorem alignUp_dvd (x a : Int) : a ∣ alignUp x a :=
  Dvd.intro_left _ rfl

theorem le_alignUp (x a : Int) (ha : 1 ≤ a) : x ≤ alignUp x a := by
  rw [alignUp_eq]
  have h := Int.emod_lt_of_pos (x + a - 1) (show 0 < a by omega)
  omega

theorem alignUp_lt (x a : Int) (ha : 1 ≤ a) : alignUp x a < x + a := by
  rw [alignUp_eq]
  have h := Int.emod_nonneg (x + a - 1) (show a ≠ 0 by omega)
  omega

theorem alignUp_least (x a k : Int) (ha : 1 ≤ a) (hk : a ∣ k) (hx : x ≤ k) :
    alignUp x a ≤ k := by
  by_contra hlt
  have hd : a ∣ alignUp x a - k := Int.dvd_sub (alignUp_dvd x a) hk
  have hle := Int.le_of_dvd (by omega) hd
  have h := alignUp_lt x a ha
  omega

theorem alignUp_mono (x y a : Int) (ha : 1 ≤ a) (hxy : x ≤ y) : alignUp x a ≤ alignUp y a :=
  alignUp_least x a _ ha (alignUp_dvd y a) (le_trans hxy (le_alignUp y a ha))

theorem alignUp_of_dvd (x a : Int) (ha : 1 ≤ a) (h : a ∣ x) : alignUp x a = x := by
  apply le_antisymm
  · exact alignUp_least x a x ha h (le_refl x)
  · exact le_alignUp x a ha

theorem alignUp_eq_self_iff (x a : Int) (ha : 1 ≤ a) : alignUp x a = x ↔ a ∣ x :=
  ⟨fun h => h ▸ alignUp_dvd x a, alignUp_of_dvd x a ha⟩

/-! ## Wrap-around -/

theorem wrapInt_of_range (x : Int) (h1 : -9223372036854775808 ≤ x) (h2 : x ≤ maxInt) :
    wrapInt x = x := by
  unfold wrapInt; unfold maxInt at h2; omega

theorem wrapInt_add_wrapInt (x y : Int) : wrapInt (x + wrapInt y) = wrapInt (x + y) := by
  unfold wrapInt; omega

theorem wrapInt_wrapInt_add (x y : Int) : wrapInt (wrapInt x + y) = wrapInt (x + y) := by
  unfold wrapInt; omega

theorem wrapInt_le (x : Int) (h1 : -9223372036854775808 ≤ x) : wrapInt x ≤ x := by
  unfold wrapInt; omega

theorem wrapInt_le_maxInt (x : Int) : wrapInt x ≤ maxInt := by
  unfold wrapInt maxInt; omega

theorem wrapInt_idem (x : Int) : wrapInt (wrapInt x) = wrapInt x := by
  unfold wrapInt; omega

theorem neg_lt_tmod (x a : Int) (ha : 0 < a) : -a < x.tmod a := by
  obtain ⟨m, rfl⟩ := Int.eq_ofNat_of_zero_le (le_of_lt ha)
  cases x with
  | ofNat n =>
    have := Int.tmod_nonneg (m : Int) (Int.ofNat_nonneg n)
    simp only [Int.ofNat_eq_coe] at *
    omega
  | negSucc n =>
    have hm : 0 < m := by omega
    have h : (Int.negSucc n).tmod (m : Int) = -(((n + 1) % m : Nat) : Int) := rfl
    rw [h]
    have := Nat.mod_lt (n + 1) hm
    omega

/-- The rounding step of `main` never panics when the alignment is not zero. -/
theorem roundUp_eq (v a : Int) (ha : a ≠ 0) :
    roundUp v a = some (if v.tmod a ≠ 0 then goAdd v (goSub a (v.tmod a)) else v) := by
  unfold roundUp goRem
  simp only [if_neg ha]
  split_ifs <;> rfl

/-- Without wrap-around the rounding step yields the next multiple of the alignment. -/
theorem round_eq_alignUp (v a : Int) (ha : 1 ≤ a) (hv : 0 ≤ v) :
    (if v.tmod a ≠ 0 then v + (a - v.tmod a) else v) = alignUp v a := by
  rw [Int.tmod_eq_emod hv (by omega)]
  have hnn := Int.emod_nonneg v (show a ≠ 0 by omega)
  have hlt := Int.emod_lt_of_pos v (show 0 < a by omega)
  have hdiv := Int.emod_add_ediv v a
  split_ifs with h
  · have hd : a ∣ v + (a - v % a) := ⟨v / a + 1, by rw [Int.mul_add]; omega⟩
    apply le_antisymm
    · have := alignUp_lt v a ha
      have hd2 : a ∣ v + (a - v % a) - alignUp v a := Int.dvd_sub hd (alignUp_dvd v a)
      by_contra hc
      have := Int.le_of_dvd (by omega) hd2
      have := le_alignUp v a ha
      omega
    · exact alignUp_least v a _ ha hd (by omega)
  · push_neg at h
    exact (alignUp_of_dvd v a ha (Int.dvd_of_emod_eq_zero h)).symm

/-- On a size that is not negative the rounding step of `main` yields the next multiple of the
alignment, wrapped around when that multiple is not an `int`. -/
theorem roundUp_eq_wrap (v a : Int) (ha : 1 ≤ a) (hv : 0 ≤ v) (hmax : v ≤ maxInt) :
    roundUp v a = some (wrapInt (alignUp v a)) := by
  rw [roundUp_eq v a (by omega), ← round_eq_alignUp v a ha hv]
  congr 1
  split_ifs with h
  · unfold goAdd goSub
    rw [wrapInt_add_wrapInt]
  · exact (wrapInt_of_range v (by omega) hmax).symm

/-- On a size that is not negative whose next multiple of the alignment is an `int`, the
rounding step of `main` yields that multiple. -/
theorem roundUp_eq_alignUp (v a : Int) (ha : 1 ≤ a) (hv : 0 ≤ v) (hfit : alignUp v a ≤ maxInt) :
    roundUp v a = some (alignUp v a) := by
  have hle := le_alignUp v a ha
  rw [roundUp_eq_wrap v a ha hv (le_trans hle hfit),
    wrapInt_of_range _ (by omega) hfit]

/-- The rounding step of `main` never leaves the range of `int` upwards. -/
theorem roundUp_le_maxInt (v a m : Int) (hv : v ≤ maxInt) (h : roundUp v a = some m) :
    m ≤ maxInt := by
  by_cases ha : a = 0
  · subst ha
    simp [roundUp, goRem] at h
  · rw [roundUp_eq v a ha] at h
    have h2 := Option.some.inj h
    subst h2
    split_ifs
    · exact wrapInt_le_maxInt _
    · exact hv

/-! ## The loop over the fields -/

theorem collect_foldl (vars : List Var) (fl : fieldList) (n : Int) :
    vars.foldl
      (fun acc v => (acc.1 ++ [structField.mk v.name v.typeSize], goAdd acc.2 v.typeSize))
      (fl, wrapInt n)
    = (fl ++ vars.map (fun v => structField.mk v.name v.typeSize),
       wrapInt (n + (vars.map Var.typeSize).sum)) := by
  induction vars generalizing fl n with
  | nil => simp
  | cons v vs ih =>
    simp only [List.foldl_cons, List.map_cons, List.sum_cons]
    have h : goAdd (wrapInt n) v.typeSize = wrapInt (n + v.typeSize) := wrapInt_wrapInt_add _ _
    rw [h, ih]
    simp [add_assoc]

theorem collect_fst (vars : List Var) :
    (collect vars).1 = vars.map (fun v => structField.mk v.name v.typeSize) := by
  have h := collect_foldl vars [] 0
  have h0 : wrapInt 0 = 0 := by decide
  rw [h0] at h
  simp [collect, h]

/-- The loop leaves in `minSize` the sum of the field sizes, wrapped around. -/
theorem collect_snd (vars : List Var) :
    (collect vars).2 = wrapInt (vars.map Var.typeSize).sum := by
  have h := collect_foldl vars [] 0
  have h0 : wrapInt 0 = 0 := by decide
  rw [h0] at h
  simp [collect, h]

theorem sum_typeSize_nonneg (vars : List Var) (h : ∀ v ∈ vars, 0 ≤ v.typeSize) :
    0 ≤ (vars.map Var.typeSize).sum := by
  apply List.sum_nonneg
  intro x hx
  obtain ⟨v, hv, rfl⟩ := List.mem_map.1 hx
  exact h v hv

/-! ## The comparator and the sort -/

theorem Less_eq_lessField (fl : fieldList) (i j : Fin fl.length) :
    fieldList.Less fl i j = lessField (fl.get i) (fl.get j) := rfl

theorem lessField_iff (x y : structField) :
    lessField x y = true ↔ (y.size < x.size ∨ (x.size = y.size ∧ x.name < y.name)) := by
  have hs : x.name.data < y.name.data ↔ x.name < y.name := String.lt_iff_toList_lt.symm
  unfold lessField fieldList.Less
  simp only [List.get_eq_getElem, List.getElem_cons_zero, List.getElem_cons_succ, gt_iff_lt]
  split_ifs with h1 h2 h3
  · simp [h1]
  · simp only [Bool.false_eq_true, false_iff]; omega
  · simp only [true_iff]; exact Or.inr ⟨by omega, hs.1 h3⟩
  · simp only [Bool.false_eq_true, false_iff]
    rintro (h | ⟨_, h⟩)
    · exact h1 h
    · exact h3 (hs.2 h)

theorem lessField_false_iff (x y : structField) :
    lessField y x = false ↔ (y.size ≤ x.size ∧ (x.size = y.size → x.name ≤ y.name)) := by
  rw [← Bool.not_eq_true, lessField_iff]
  constructor
  · intro h
    push_neg at h
    exact ⟨h.1, fun he => h.2 he.symm⟩
  · rintro ⟨h1, h2⟩ (h | ⟨he, h⟩)
    · omega
    · exact absurd h (not_lt.2 (h2 he.symm))

theorem lessField_irrefl (x : structField) : lessField x x = false := by
  rw [lessField_false_iff]; exact ⟨le_refl _, fun _ => le_refl _⟩

theorem lessField_trans (x y z : structField) (hxy : lessField x y = true)
    (hyz : lessField y z = true) : lessField x z = true := by
  rw [lessField_iff] at *
  rcases hxy with h | ⟨he, h⟩ <;> rcases hyz with k | ⟨ke, k⟩
  · left; omega
  · left; omega
  · left; omega
  · right; exact ⟨by omega, lt_trans h k⟩

theorem lessField_asymm (x y : structField) (hxy : lessField x y = true) :
    lessField y x = false := by
  rw [lessField_false_iff]
  rw [lessField_iff] at hxy
  rcases hxy with h | ⟨he, h⟩
  · exact ⟨by omega, fun he => by omega⟩
  · exact ⟨by omega, fun _ => le_of_lt h⟩

theorem lessField_total (x y : structField) (hne : x ≠ y) :
    lessField x y = true ∨ lessField y x = true := by
  simp only [lessField_iff]
  rcases lt_trichotomy x.size y.size with h | h | h
  · exact Or.inr (Or.inl h)
  · rcases lt_trichotomy x.name y.name with k | k | k
    · exact Or.inl (Or.inr ⟨h, k⟩)
    · exfalso; apply hne
      cases x; cases y; simp_all
    · exact Or.inr (Or.inr ⟨h.symm, k⟩)
  · exact Or.inl (Or.inl h)

theorem noInv_trans (x y z : structField) (hxy : lessField y x = false)
    (hyz : lessField z y = false) : lessField z x = false := by
  by_contra h
  rw [Bool.not_eq_false] at h
  by_cases hxy2 : x = y
  · subst hxy2; rw [h] at hyz; exact Bool.noConfusion hyz
  · rcases lessField_total x y hxy2 with k | k
    · have := lessField_trans z x y h k
      rw [this] at hyz; exact Bool.noConfusion hyz
    · rw [k] at hxy; exact Bool.noConfusion hxy

theorem noInv_antisymm (x y : structField) (hxy : lessField y x = false)
    (hyx : lessField x y = false) : x = y := by
  by_contra hne
  rcases lessField_total x y hne with k | k
  · rw [k] at hyx; exact Bool.noConfusion hyx
  · rw [k] at hxy; exact Bool.noConfusion hxy

theorem insertField_perm (x : structField) (l : fieldList) : (insertField x l).Perm (x :: l) := by
  induction l with
  | nil => exact List.Perm.refl _
  | cons y ys ih =>
    unfold insertField
    split_ifs
    · exact ((ih.cons y).trans (List.Perm.swap x y ys))
    · exact List.Perm.refl _

theorem sortSort_perm (l : fieldList) : (sortSort l).Perm l := by
  induction l with
  | nil => exact List.Perm.refl _
  | cons x xs ih => exact (insertField_perm x _).trans (ih.cons x)

theorem insertField_arranged (x : structField) (l : fieldList) (h : arranged l) :
    arranged (insertField x l) := by
  induction l with
  | nil => simp [insertField, arranged]
  | cons y ys ih =>
    unfold arranged at h ih ⊢
    rw [List.pairwise_cons] at h
    unfold insertField
    split_ifs with hyx
    · rw [List.pairwise_cons]
      refine ⟨?_, ih h.2⟩
      intro z hz
      rcases List.mem_cons.1 ((insertField_perm x ys).mem_iff.1 hz) with rfl | hz
      · exact lessField_asymm y z hyx
      · exact h.1 z hz
    · rw [Bool.not_eq_true] at hyx
      rw [List.pairwise_cons, List.pairwise_cons]
      refine ⟨?_, h⟩
      intro z hz
      rcases List.mem_cons.1 hz with rfl | hz
      · exact hyx
      · exact noInv_trans x y z hyx (h.1 z hz)

theorem sortSort_arranged (l : fieldList) : arranged (sortSort l) := by
  induction l with
  | nil => simp [sortSort, arranged]
  | cons x xs ih => exact insertField_arranged x _ ih

theorem arranged_unique (l₁ l₂ : fieldList) (hp : l₁.Perm l₂) (h₁ : arranged l₁)
    (h₂ : arranged l₂) : l₁ = l₂ := by
  induction l₁ generalizing l₂ with
  | nil => exact (List.Perm.nil_eq hp)
  | cons x xs ih =>
    cases l₂ with
    | nil => exact absurd hp.symm (List.nil_perm.not.2 (List.cons_ne_nil _ _))
    | cons y ys =>
      unfold arranged at h₁ h₂
      rw [List.pairwise_cons] at h₁ h₂
      have hxy : x = y := by
        have hx : x ∈ y :: ys := hp.mem_iff.1 (List.mem_cons_self x xs)
        have hy : y ∈ x :: xs := hp.mem_iff.2 (List.mem_cons_self y ys)
        rcases List.mem_cons.1 hx with h | hx
        · exact h
        · rcases List.mem_cons.1 hy with h | hy
          · exact h.symm
          · exact noInv_antisymm x y (h₁.1 y hy) (h₂.1 x hx)
      subst hxy
      rw [ih ys (List.Perm.cons_inv hp) h₁.2 h₂.2]

/-- Every arrangement of the fields of `l` without an inversion under `Less` is `sortSort l`:
whatever algorithm `sort.Sort` runs, this is its result. -/
theorem sortSort_unique (l out : fieldList) (hp : out.Perm l) (hs : arranged out) :
    out = sortSort l :=
  arranged_unique out (sortSort l) (hp.trans (sortSort_perm l).symm) hs (sortSort_arranged l)

/-! ## The layout rule -/

theorem abiEnd_ge (o : Int) (vars : List Var) (h : ∀ v ∈ vars, 1 ≤ v.typeAlign) :
    o + (vars.map Var.typeSize).sum ≤ abiEnd o vars := by
  induction vars generalizing o with
  | nil => simp [abiEnd]
  | cons v vs ih =>
    have h1 := le_alignUp o v.typeAlign (h v (List.mem_cons_self v vs))
    have h2 := ih (alignUp o v.typeAlign + v.typeSize) (fun w hw => h w (List.mem_cons_of_mem v hw))
    simp only [abiEnd, List.map_cons, List.sum_cons]
    omega

theorem fits_alignUp (x a : Int) (ha : 1 ≤ a)
    (hfit : ∃ k, a ∣ k ∧ x ≤ k ∧ k ≤ maxInt) : alignUp x a ≤ maxInt := by
  obtain ⟨k, hk, hx, hmax⟩ := hfit
  exact le_trans (alignUp_least x a k ha hk hx) hmax

/-- When the sum of the field sizes rounded up is an `int`, `minSize` is that number. -/
theorem minSizeOf_eq (strukt : Struct) (ha : 1 ≤ strukt.alignof)
    (hsize : ∀ v ∈ strukt.fields, 0 ≤ v.typeSize)
    (hfit : alignUp (strukt.fields.map Var.typeSize).sum strukt.alignof ≤ maxInt) :
    minSizeOf strukt = some (alignUp (strukt.fields.map Var.typeSize).sum strukt.alignof) := by
  have hsum := sum_typeSize_nonneg _ hsize
  have hle := le_alignUp (strukt.fields.map Var.typeSize).sum strukt.alignof ha
  unfold minSizeOf
  rw [collect_snd, wrapInt_of_range _ (by omega) (le_trans hle hfit)]
  exact roundUp_eq_alignUp _ _ ha hsum hfit

/-- Wrapped around or not, `minSize` never exceeds the sum of the field sizes rounded up. -/
theorem minSizeOf_le (strukt : Struct) (ha : 1 ≤ strukt.alignof)
    (hsize : ∀ v ∈ strukt.fields, 0 ≤ v.typeSize) :
    ∃ m, minSizeOf strukt = some m ∧
      m ≤ alignUp (strukt.fields.map Var.typeSize).sum strukt.alignof := by
  have hsum := sum_typeSize_nonneg _ hsize
  have hle := le_alignUp (strukt.fields.map Var.typeSize).sum strukt.alignof ha
  by_cases hmax : (strukt.fields.map Var.typeSize).sum ≤ maxInt
  · refine ⟨wrapInt (alignUp (strukt.fields.map Var.typeSize).sum strukt.alignof), ?_, ?_⟩
    · unfold minSizeOf
      rw [collect_snd, wrapInt_of_range _ (by omega) hmax]
      exact roundUp_eq_wrap _ _ ha hsum hmax
    · exact wrapInt_le _ (by omega)
  · have hm : minSizeOf strukt = some _ :=
      roundUp_eq (collect strukt.fields).2 strukt.alignof (by omega)
    refine ⟨_, hm, ?_⟩
    have hb := roundUp_le_maxInt (collect strukt.fields).2 strukt.alignof _
      (by rw [collect_snd]; exact wrapInt_le_maxInt _) hm
    omega

theorem abi_packed (o : Int) (vars : List Var)
    (h1 : ∀ v ∈ vars, 1 ≤ v.typeAlign ∧ v.typeAlign ∣ v.typeSize)
    (hp : vars.Pairwise (fun v w => w.typeAlign ∣ v.typeAlign))
    (ho : ∀ v ∈ vars, v.typeAlign ∣ o) :
    abiOffsets o vars = packedOffsets o vars ∧
    abiEnd o vars = o + (vars.map Var.typeSize).sum := by
  induction vars generalizing o with
  | nil => simp [abiOffsets, packedOffsets, abiEnd]
  | cons v vs ih =>
    rw [List.pairwise_cons] at hp
    have hv := h1 v (List.mem_cons_self v vs)
    have hal : alignUp o v.typeAlign = o :=
      alignUp_of_dvd o v.typeAlign hv.1 (ho v (List.mem_cons_self v vs))
    have hnext : ∀ w ∈ vs, w.typeAlign ∣ o + v.typeSize := by
      intro w hw
      have hwv := hp.1 w hw
      exact Int.dvd_add (Int.dvd_trans hwv (ho v (List.mem_cons_self v vs)))
        (Int.dvd_trans hwv hv.2)
    have ih2 := ih (o + v.typeSize) (fun w hw => h1 w (List.mem_cons_of_mem v hw)) hp.2 hnext
    simp only [abiOffsets, packedOffsets, abiEnd, hal, List.map_cons, List.sum_cons]
    exact ⟨by rw [ih2.1], by rw [ih2.2]; omega⟩

theorem structAlign_foldl_ge (m : Int) (vars : List Var) :
    m ≤ vars.foldl (fun m v => max m v.typeAlign) m := by
  induction vars generalizing m with
  | nil => exact le_refl m
  | cons v vs ih => exact le_trans (le_max_left m v.typeAlign) (ih (max m v.typeAlign))

theorem one_le_structAlign (vars : List Var) : 1 ≤ structAlign vars :=
  structAlign_foldl_ge 1 vars

theorem pow2_dvd_of_le (i j : Nat) (h : (2 : Int) ^ i ≤ 2 ^ j) : (2 : Int) ^ i ∣ 2 ^ j := by
  rcases le_total i j with hij | hji
  · exact pow_dvd_pow 2 hij
  · have hd : (2 : Int) ^ j ∣ 2 ^ i := pow_dvd_pow 2 hji
    have hle := Int.le_of_dvd (by positivity) hd
    rw [le_antisymm h hle]

theorem min_pow2 (i k : Nat) : ∃ n : Nat, min ((2 : Int) ^ i) (2 ^ k) = 2 ^ n := by
  rcases le_total ((2 : Int) ^ i) (2 ^ k) with h | h
  · exact ⟨i, min_eq_left h⟩
  · exact ⟨k, min_eq_right h⟩

theorem scalarVar_align_dvd (maxAlign : Int) (f g : structField)
    (hmax : ∃ k : Nat, maxAlign = 2 ^ k) (hf : ∃ k : Nat, f.size = 2 ^ k)
    (hg : ∃ k : Nat, g.size = 2 ^ k) (hle : g.size ≤ f.size) :
    (scalarVar maxAlign g).typeAlign ∣ (scalarVar maxAlign f).typeAlign := by
  obtain ⟨k, rfl⟩ := hmax
  obtain ⟨i, hi⟩ := hf
  obtain ⟨j, hj⟩ := hg
  simp only [scalarVar, hi, hj] at hle ⊢
  obtain ⟨n, hn⟩ := min_pow2 i k
  obtain ⟨m, hm⟩ := min_pow2 j k
  have hmin : min ((2 : Int) ^ j) (2 ^ k) ≤ min (2 ^ i) (2 ^ k) := min_le_min hle (le_refl _)
  rw [hn, hm] at hmin ⊢
  exact pow2_dvd_of_le m n hmin

theorem scalarVar_align_ok (maxAlign : Int) (f : structField)
    (hmax : ∃ k : Nat, maxAlign = 2 ^ k) (hf : ∃ k : Nat, f.size = 2 ^ k) :
    1 ≤ (scalarVar maxAlign f).typeAlign ∧
    (scalarVar maxAlign f).typeAlign ∣ (scalarVar maxAlign f).typeSize := by
  obtain ⟨k, rfl⟩ := hmax
  obtain ⟨i, hi⟩ := hf
  simp only [scalarVar, hi]
  obtain ⟨n, hn⟩ := min_pow2 i k
  have hle : min ((2 : Int) ^ i) (2 ^ k) ≤ 2 ^ i := min_le_left _ _
  rw [hn] at hle ⊢
  exact ⟨Int.le_of_lt_add_one (by have : (0 : Int) < 2 ^ n := by positivity
                                  omega), pow2_dvd_of_le n i hle⟩

/-! ## The properties -/

/-- C1 (lower bound): for a record whose field sizes are not negative and whose alignments are at
least 1, the `minSize` of `main` is at most the padded size the layout rule gives to any order of
the fields, in particular to the declared order; and when the oracle size is at least the end of
the last field in declared order and its rounding to the alignment is an `int`, `minSize` is at
most the `structSize` that `main` compares it with. -/
theorem minSize_le_abiSize (strukt : Struct) (order : List Var)
    (ha : 1 ≤ strukt.alignof)
    (hsize : ∀ v ∈ strukt.fields, 0 ≤ v.typeSize)
    (halign : ∀ v ∈ strukt.fields, 1 ≤ v.typeAlign)
    (hperm : order.Perm strukt.fields) :
    ∃ m, minSizeOf strukt = some m ∧
      m ≤ abiSize order strukt.alignof ∧
      m ≤ abiSize strukt.fields strukt.alignof ∧
      (abiEnd 0 strukt.fields ≤ strukt.sizeof →
        alignUp strukt.sizeof strukt.alignof ≤ maxInt →
        ∃ s, structSizeOf strukt = some s ∧ m ≤ s) := by
  have hsum := sum_typeSize_nonneg _ hsize
  obtain ⟨m, hm, hmle⟩ := minSizeOf_le strukt ha hsize
  have key : ∀ l : List Var, l.Perm strukt.fields → m ≤ abiSize l strukt.alignof := by
    intro l hl
    have hge := abiEnd_ge 0 l (fun v hv => halign v (hl.mem_iff.1 hv))
    rw [(hl.map Var.typeSize).sum_eq] at hge
    exact le_trans hmle (alignUp_mono _ _ _ ha (by omega))
  refine ⟨m, hm, key order hperm, key _ (List.Perm.refl _), ?_⟩
  intro hor hfit
  have hge := abiEnd_ge 0 strukt.fields halign
  refine ⟨alignUp strukt.sizeof strukt.alignof,
    roundUp_eq_alignUp _ _ ha (by omega) hfit, ?_⟩
  exact le_trans hmle (alignUp_mono _ _ _ ha (by omega))

/-- C2, as stated, fails: with alignment 8 and the field sizes 2^62, 2^62 and 8, none negative,
the addition of line 108 wraps around and `minSize` is -2^63 + 8, below the sum of the sizes. -/
theorem minSize_wraps_around :
    (1 ≤ overflowStruct.alignof ∧ ∀ v ∈ overflowStruct.fields, 0 ≤ v.typeSize) ∧
    minSizeOf overflowStruct = some (-9223372036854775800) ∧
    ¬ ((overflowStruct.fields.map Var.typeSize).sum ≤ -9223372036854775800) := by
  decide

/-- C2 (amended): for field sizes that are not negative and a record alignment `a >= 1` such that
some multiple of `a` at or above the sum of the field sizes is an `int`, the `minSize` of `main`
is a multiple of `a` (`minSize % a == 0`), at least the sum of the field sizes, less than the sum
plus `a`, and the least multiple of `a` at or above the sum. -/
theorem minSize_rounding (strukt : Struct)
    (ha : 1 ≤ strukt.alignof)
    (hsize : ∀ v ∈ strukt.fields, 0 ≤ v.typeSize)
    (hfit : ∃ k, strukt.alignof ∣ k ∧ (strukt.fields.map Var.typeSize).sum ≤ k ∧ k ≤ maxInt) :
    ∃ m, minSizeOf strukt = some m ∧
      goRem m strukt.alignof = some 0 ∧
      strukt.alignof ∣ m ∧
      (strukt.fields.map Var.typeSize).sum ≤ m ∧
      m < (strukt.fields.map Var.typeSize).sum + strukt.alignof ∧
      ∀ k, strukt.alignof ∣ k → (strukt.fields.map Var.typeSize).sum ≤ k → m ≤ k := by
  have hsum := sum_typeSize_nonneg _ hsize
  refine ⟨_, minSizeOf_eq strukt ha hsize (fits_alignUp _ _ ha hfit), ?_, alignUp_dvd _ _,
    le_alignUp _ _ ha, alignUp_lt _ _ ha, fun k hk hle => alignUp_least _ _ k ha hk hle⟩
  have hle := le_alignUp (strukt.fields.map Var.typeSize).sum strukt.alignof ha
  unfold goRem
  rw [if_neg (by omega), Int.tmod_eq_emod (by omega) (by omega),
    Int.emod_eq_zero_of_dvd (alignUp_dvd _ _)]

/-- C3 (order independence): the `minSize` of `main` is the same for two field lists that are
permutations of one another, and more generally for two field lists with the same multiset of
sizes, under the same record alignment. -/
theorem minSize_perm (a sizeof₁ sizeof₂ : Int) (l₁ l₂ : List Var) :
    (l₁.Perm l₂ → minSizeOf ⟨a, sizeof₁, l₁⟩ = minSizeOf ⟨a, sizeof₂, l₂⟩) ∧
    ((l₁.map Var.typeSize).Perm (l₂.map Var.typeSize) →
      minSizeOf ⟨a, sizeof₁, l₁⟩ = minSizeOf ⟨a, sizeof₂, l₂⟩) := by
  have key : (l₁.map Var.typeSize).Perm (l₂.map Var.typeSize) →
      minSizeOf ⟨a, sizeof₁, l₁⟩ = minSizeOf ⟨a, sizeof₂, l₂⟩ := by
    intro h
    unfold minSizeOf
    simp only [collect_snd]
    rw [h.sum_eq]
  exact ⟨fun h => key (h.map _), key⟩

/-- C4, as stated, fails: for the fields a:1, b:8, c:1 with alignment 8 and the oracle size 17
the minimal size 16 is less than the actual size 17, yet the report carries 24, not 17. -/
theorem diagnose_carries_rounded_size :
    1 ≤ (Struct.mk 8 17 sampleStruct.fields).alignof ∧
    minSizeOf (Struct.mk 8 17 sampleStruct.fields) = some 16 ∧
    (16 : Int) < (Struct.mk 8 17 sampleStruct.fields).sizeof ∧
    checkStruct (Struct.mk 8 17 sampleStruct.fields)
      = some (some ⟨16, 24, [⟨"b", 8⟩, ⟨"a", 1⟩, ⟨"c", 1⟩]⟩) ∧
    checkStruct (Struct.mk 8 17 sampleStruct.fields)
      ≠ some (some ⟨16, (Struct.mk 8 17 sampleStruct.fields).sizeof,
          [⟨"b", 8⟩, ⟨"a", 1⟩, ⟨"c", 1⟩]⟩) := by
  decide

/-- C4 (amended): for a record with alignment at least 1, `main` compares `minSize` with
`structSize`, the oracle size after the rounding step, which is the oracle size itself when that
is a multiple of the alignment; when `minSize` equals `structSize` nothing is reported, and when
`minSize < structSize` the report carries that `minSize`, that `structSize` and the fields in
the order `sort.Sort` gives them.  The two scenarios of the specification evaluate as stated,
and with the oracle size 17 the second one reports 24. -/
theorem checkStruct_diagnose (strukt : Struct) (ha : 1 ≤ strukt.alignof) :
    ∃ structSize minSize, structSizeOf strukt = some structSize ∧
      minSizeOf strukt = some minSize ∧
      (strukt.alignof ∣ strukt.sizeof → structSize = strukt.sizeof) ∧
      (minSize = structSize → checkStruct strukt = some none) ∧
      (minSize < structSize → checkStruct strukt = some (some
        ⟨minSize, structSize,
          sortSort (strukt.fields.map (fun v => structField.mk v.name v.typeSize))⟩)) ∧
      (strukt.alignof ∣ strukt.sizeof → minSize = strukt.sizeof →
        checkStruct strukt = some none) ∧
      (strukt.alignof ∣ strukt.sizeof → minSize < strukt.sizeof →
        checkStruct strukt = some (some
          ⟨minSize, strukt.sizeof,
            sortSort (strukt.fields.map (fun v => structField.mk v.name v.typeSize))⟩)) ∧
      checkStruct ⟨8, 16, [⟨"x", 8, 8⟩, ⟨"y", 8, 8⟩]⟩ = some none ∧
      checkStruct ⟨8, 24, [⟨"a", 1, 1⟩, ⟨"b", 8, 8⟩, ⟨"c", 1, 1⟩]⟩
        = some (some ⟨16, 24, [⟨"b", 8⟩, ⟨"a", 1⟩, ⟨"c", 1⟩]⟩) ∧
      checkStruct ⟨8, 17, [⟨"a", 1, 1⟩, ⟨"b", 8, 8⟩, ⟨"c", 1, 1⟩]⟩
        = some (some ⟨16, 24, [⟨"b", 8⟩, ⟨"a", 1⟩, ⟨"c", 1⟩]⟩) := by
  have hne : strukt.alignof ≠ 0 := by omega
  have hs : structSizeOf strukt = some _ := roundUp_eq strukt.sizeof strukt.alignof hne
  have hm : minSizeOf strukt = some _ := roundUp_eq (collect strukt.fields).2 strukt.alignof hne
  have hdvd : strukt.alignof ∣ strukt.sizeof →
      (if strukt.sizeof.tmod strukt.alignof ≠ 0
        then goAdd strukt.sizeof (goSub strukt.alignof (strukt.sizeof.tmod strukt.alignof))
        else strukt.sizeof) = strukt.sizeof := by
    intro hd
    rw [if_neg]
    rw [not_not, Int.tmod_eq_zero_of_dvd hd]
  have heq : ∀ x y : Int, structSizeOf strukt = some x → minSizeOf strukt = some y → y = x →
      checkStruct strukt = some none := by
    intro x y hx hy he
    unfold checkStruct
    rw [hx, hy]
    simp only [he, ne_eq, not_true_eq_false, if_false]
  have hlt : ∀ x y : Int, structSizeOf strukt = some x → minSizeOf strukt = some y → y < x →
      checkStruct strukt = some (some ⟨y, x,
        sortSort (strukt.fields.map (fun v => structField.mk v.name v.typeSize))⟩) := by
    intro x y hx hy hl
    unfold checkStruct
    rw [hx, hy]
    simp only [ne_eq, ne_of_lt hl, not_false_eq_true, if_true, collect_fst]
  refine ⟨_, _, hs, hm, hdvd, heq _ _ hs hm, hlt _ _ hs hm, ?_, ?_, by decide, by decide,
    by decide⟩
  · intro hd he
    exact heq _ _ (by rw [hs, hdvd hd]) hm he
  · intro hd hl
    exact hlt _ _ (by rw [hs, hdvd hd]) hm hl

/-- C5 (suggested order): the sorted field list is a permutation of the input in which every
field standing before another has a size at least the later one's and, when the sizes are equal,
a name at most the later one's; and `Less(i, j)` holds exactly when the size at `i` is greater
than the size at `j`, or the sizes are equal and the name at `i` is less than the name at `j`. -/
theorem sortSort_descending (fl : fieldList) :
    (sortSort fl).Perm fl ∧
    (sortSort fl).Pairwise
      (fun x y => y.size ≤ x.size ∧ (x.size = y.size → x.name ≤ y.name)) ∧
    ∀ i j : Fin fl.length, fieldList.Less fl i j = true ↔
      ((fl.get i).size > (fl.get j).size ∨
        ((fl.get i).size = (fl.get j).size ∧ (fl.get i).name < (fl.get j).name)) := by
  refine ⟨sortSort_perm fl, ?_, fun i j => ?_⟩
  · exact (sortSort_arranged fl).imp (fun {x y} h => (lessField_false_iff x y).1 h)
  · rw [Less_eq_lessField, lessField_iff]

/-- C6 (determinism of the suggestion): `Less` is irreflexive and transitive, of two positions
holding distinct fields (in particular fields with distinct names) exactly one is `Less` than the
other, the sorted list is the same for two field lists that are permutations of one another, and
the fields A:8, B:4, C:8 given in any order are sorted to A, C, B. -/
theorem sortSort_deterministic :
    (∀ (fl : fieldList) (i : Fin fl.length), fieldList.Less fl i i = false) ∧
    (∀ (fl : fieldList) (i j k : Fin fl.length), fieldList.Less fl i j = true →
      fieldList.Less fl j k = true → fieldList.Less fl i k = true) ∧
    (∀ (fl : fieldList) (i j : Fin fl.length), fl.get i ≠ fl.get j →
      (fieldList.Less fl i j = true ∧ fieldList.Less fl j i = false) ∨
      (fieldList.Less fl i j = false ∧ fieldList.Less fl j i = true)) ∧
    (∀ (fl : fieldList) (i j : Fin fl.length), (fl.get i).name ≠ (fl.get j).name →
      (fieldList.Less fl i j = true ∧ fieldList.Less fl j i = false) ∨
      (fieldList.Less fl i j = false ∧ fieldList.Less fl j i = true)) ∧
    (∀ l₁ l₂ : fieldList, l₁.Perm l₂ → sortSort l₁ = sortSort l₂) ∧
    (∀ l : fieldList, l.Perm [⟨"A", 8⟩, ⟨"B", 4⟩, ⟨"C", 8⟩] →
      sortSort l = [⟨"A", 8⟩, ⟨"C", 8⟩, ⟨"B", 4⟩]) := by
  have tri : ∀ (fl : fieldList) (i j : Fin fl.length), fl.get i ≠ fl.get j →
      (fieldList.Less fl i j = true ∧ fieldList.Less fl j i = false) ∨
      (fieldList.Less fl i j = false ∧ fieldList.Less fl j i = true) := by
    intro fl i j hne
    simp only [Less_eq_lessField]
    rcases lessField_total _ _ hne with h | h
    · exact Or.inl ⟨h, lessField_asymm _ _ h⟩
    · exact Or.inr ⟨lessField_asymm _ _ h, h⟩
  have det : ∀ l₁ l₂ : fieldList, l₁.Perm l₂ → sortSort l₁ = sortSort l₂ :=
    fun l₁ l₂ hp => sortSort_unique l₂ (sortSort l₁) ((sortSort_perm l₁).trans hp)
      (sortSort_arranged l₁)
  refine ⟨fun fl i => lessField_irrefl _, fun fl i j k => lessField_trans _ _ _, tri, ?_, det, ?_⟩
  · intro fl i j hne
    exact tri fl i j (fun h => hne (congrArg structField.name h))
  · intro l hp
    rw [det l _ hp]
    decide

/-- C7, as stated, fails: with alignment 8 and the oracle size 17 (fields of sizes 1, 8, 1 laid
out without trailing padding) the `structSize` that `main` compares and reports is 24. -/
theorem structSize_not_oracle_size :
    (1 : Int) ≤ (Struct.mk 8 17 [⟨"a", 1, 1⟩, ⟨"b", 8, 8⟩, ⟨"c", 1, 1⟩]).alignof ∧
    structSizeOf (Struct.mk 8 17 [⟨"a", 1, 1⟩, ⟨"b", 8, 8⟩, ⟨"c", 1, 1⟩]) = some 24 ∧
    structSizeOf (Struct.mk 8 17 [⟨"a", 1, 1⟩, ⟨"b", 8, 8⟩, ⟨"c", 1, 1⟩])
      ≠ some (Struct.mk 8 17 [⟨"a", 1, 1⟩, ⟨"b", 8, 8⟩, ⟨"c", 1, 1⟩]).sizeof := by
  decide

/-- C7 (amended): for a record alignment `a >= 1` (an `int`, so at most 2^63 - 1) the
`structSize` that `main` compares with `minSize` is the oracle size after the rounding step: it
equals the oracle size exactly when that is a multiple of `a`, and for an oracle size that is
not negative and has a multiple of `a` at or above it that is an `int`, it is the least multiple
of `a` at or above the oracle size. -/
theorem structSize_rounds_oracle_size (strukt : Struct) (ha : 1 ≤ strukt.alignof)
    (hint : strukt.alignof ≤ maxInt) :
    ∃ s, structSizeOf strukt = some s ∧
      (s = strukt.sizeof ↔ strukt.alignof ∣ strukt.sizeof) ∧
      (0 ≤ strukt.sizeof →
        (∃ k, strukt.alignof ∣ k ∧ strukt.sizeof ≤ k ∧ k ≤ maxInt) →
        strukt.alignof ∣ s ∧ strukt.sizeof ≤ s ∧ s < strukt.sizeof + strukt.alignof ∧
        ∀ k, strukt.alignof ∣ k → strukt.sizeof ≤ k → s ≤ k) := by
  have hne : strukt.alignof ≠ 0 := by omega
  refine ⟨_, roundUp_eq strukt.sizeof strukt.alignof hne, ?_, ?_⟩
  · constructor
    · intro h
      split_ifs at h with hr
      · exfalso
        have hlt := Int.tmod_lt_of_pos strukt.sizeof (show 0 < strukt.alignof by omega)
        have hgt := neg_lt_tmod strukt.sizeof strukt.alignof (by omega)
        unfold goAdd goSub at h
        rw [wrapInt_add_wrapInt] at h
        unfold wrapInt at h
        unfold maxInt at hint
        omega
      · rw [not_not] at hr
        exact Int.dvd_of_tmod_eq_zero hr
    · intro hd
      rw [if_neg]
      rw [not_not, Int.tmod_eq_zero_of_dvd hd]
  · intro h0 hfit
    have h := roundUp_eq_alignUp strukt.sizeof strukt.alignof ha h0 (fits_alignUp _ _ ha hfit)
    rw [roundUp_eq strukt.sizeof strukt.alignof hne] at h
    rw [Option.some.inj h]
    exact ⟨alignUp_dvd _ _, le_alignUp _ _ ha, alignUp_lt _ _ ha,
      fun k hk hle => alignUp_least _ _ k ha hk hle⟩

/-- C8 (empty record and totality): for every field list, oracle size and record alignment
`a >= 1` neither modulo step divides by zero, so `structSize`, `minSize` and the verdict are
computed; for the empty field list `minSize` is 0, and with the oracle size 0 nothing is
reported. -/
theorem checkStruct_total (a sizeof : Int) (vars : List Var) (ha : 1 ≤ a) :
    (goRem sizeof a).isSome = true ∧
    (goRem (collect vars).2 a).isSome = true ∧
    (structSizeOf ⟨a, sizeof, vars⟩).isSome = true ∧
    (minSizeOf ⟨a, sizeof, vars⟩).isSome = true ∧
    (checkStruct ⟨a, sizeof, vars⟩).isSome = true ∧
    minSizeOf ⟨a, sizeof, []⟩ = some 0 ∧
    checkStruct ⟨a, 0, []⟩ = some none := by
  have hne : a ≠ 0 := by omega
  have hg : ∀ x, goRem x a = some (x.tmod a) := fun x => by unfold goRem; rw [if_neg hne]
  have hs : ∀ sz l, structSizeOf ⟨a, sz, l⟩ = some _ := fun sz l => roundUp_eq sz a hne
  have hm : ∀ sz l, minSizeOf ⟨a, sz, l⟩ = some _ := fun sz l => roundUp_eq (collect l).2 a hne
  refine ⟨by rw [hg]; rfl, by rw [hg]; rfl, by rw [hs]; rfl, by rw [hm]; rfl, ?_, ?_, ?_⟩
  · unfold checkStruct
    rw [hs, hm]
    dsimp only
    split_ifs <;> rfl
  · rw [hm]
    simp [collect]
  · unfold checkStruct
    rw [hs, hm]
    simp [collect]

/-- C10, as stated, fails: with alignment 8, the field sizes 1, 8 and 2^63 - 17 and the oracle
size 2^63 - 1, which is at least their sum, the rounding of line 99 wraps around and `main`
reports a `structSize` of -2^63, less than the `minSize` 2^63 - 8. -/
theorem finding_saving_wraps_around :
    (1 ≤ hugeStruct.alignof ∧ (∀ v ∈ hugeStruct.fields, 0 ≤ v.typeSize) ∧
      (hugeStruct.fields.map Var.typeSize).sum ≤ hugeStruct.sizeof) ∧
    checkStruct hugeStruct = some (some ⟨9223372036854775800, -9223372036854775808,
      [⟨"b", 9223372036854775791⟩, ⟨"x", 8⟩, ⟨"a", 1⟩]⟩) ∧
    ¬ ((9223372036854775800 : Int) < -9223372036854775808) := by
  decide

/-- C10 (amended): for a record with alignment `a >= 1`, field sizes that are not negative and
an oracle size that is at least the sum of the field sizes and has a multiple of `a` at or above
it that is an `int`, every report of `main` has `structSize` strictly greater than `minSize`,
and their difference is a positive multiple of `a`. -/
theorem finding_saving (strukt : Struct) (f : Finding)
    (ha : 1 ≤ strukt.alignof)
    (hsize : ∀ v ∈ strukt.fields, 0 ≤ v.typeSize)
    (horacle : (strukt.fields.map Var.typeSize).sum ≤ strukt.sizeof)
    (hfit : ∃ k, strukt.alignof ∣ k ∧ strukt.sizeof ≤ k ∧ k ≤ maxInt)
    (hf : checkStruct strukt = some (some f)) :
    f.minSize < f.structSize ∧
    ∃ k : Int, 0 < k ∧ f.structSize - f.minSize = k * strukt.alignof := by
  have hsum := sum_typeSize_nonneg _ hsize
  have hfs := fits_alignUp _ _ ha hfit
  have hmono := alignUp_mono _ _ strukt.alignof ha horacle
  have hm := minSizeOf_eq strukt ha hsize (le_trans hmono hfs)
  have hs : structSizeOf strukt = some (alignUp strukt.sizeof strukt.alignof) :=
    roundUp_eq_alignUp _ _ ha (by omega) hfs
  unfold checkStruct at hf
  rw [hs, hm] at hf
  dsimp only at hf
  split_ifs at hf with hne
  · have hf2 := Option.some.inj (Option.some.inj hf)
    subst hf2
    dsimp only
    have hlt : alignUp (strukt.fields.map Var.typeSize).sum strukt.alignof
        < alignUp strukt.sizeof strukt.alignof := lt_of_le_of_ne hmono hne
    refine ⟨hlt, ?_⟩
    obtain ⟨k, hk⟩ := Int.dvd_sub (alignUp_dvd strukt.sizeof strukt.alignof)
      (alignUp_dvd (strukt.fields.map Var.typeSize).sum strukt.alignof)
    refine ⟨k, ?_, by rw [hk, Int.mul_comm]⟩
    by_contra hk0
    have : strukt.alignof * k ≤ 0 :=
      Int.mul_nonpos_of_nonneg_of_nonpos (by omega) (by omega)
    omega
  · exact absurd (Option.some.inj hf) (by simp)

/-- C9, as stated, fails: for two scalar fields of size 2^62 (alignment 8 under the maximal
alignment 8) the sorted order is laid out without padding and has the padded size 2^63, while
the addition of line 108 wraps around and the `minSize` of `main` is -2^63. -/
theorem suggestedOrder_wraps_around :
    ((∃ k : Nat, (8 : Int) = 2 ^ k) ∧
      ∀ v ∈ hugeScalars, (∃ k : Nat, v.typeSize = 2 ^ k) ∧ v.typeAlign = min v.typeSize 8) ∧
    structAlign hugeScalars = 8 ∧
    minSizeOf ⟨structAlign hugeScalars, 0, hugeScalars⟩ = some (-9223372036854775808) ∧
    abiSize ((sortSort (collect hugeScalars).1).map (scalarVar 8)) (structAlign hugeScalars)
      = 9223372036854775808 ∧
    minSizeOf ⟨structAlign hugeScalars, 0, hugeScalars⟩
      ≠ some (abiSize ((sortSort (collect hugeScalars).1).map (scalarVar 8))
          (structAlign hugeScalars)) := by
  refine ⟨⟨⟨3, by decide⟩, ?_⟩, by decide, by decide, by decide, by decide⟩
  intro v hv
  simp only [hugeScalars, List.mem_cons, List.mem_singleton, List.not_mem_nil, or_false] at hv
  rcases hv with rfl | rfl
  · exact ⟨⟨62, by decide⟩, by decide⟩
  · exact ⟨⟨62, by decide⟩, by decide⟩

/-- C9 (amended): when every field has a size that is a power of two and the alignment
`min(size, maxAlign)` with `maxAlign` a power of two, and the record alignment is the maximum of
the field alignments (1 for no fields), the fields taken in the sorted order are a reordering of
the record and the layout rule places each of them right at the end of the previous one; when
the padded size of that layout is an `int`, it is the `minSize` of `main`. -/
theorem suggestedOrder_packs (declared : List Var) (maxAlign sizeof : Int)
    (hmax : ∃ k : Nat, maxAlign = 2 ^ k)
    (hscalar : ∀ v ∈ declared,
      (∃ k : Nat, v.typeSize = 2 ^ k) ∧ v.typeAlign = min v.typeSize maxAlign) :
    ((sortSort (collect declared).1).map (scalarVar maxAlign)).Perm declared ∧
    abiOffsets 0 ((sortSort (collect declared).1).map (scalarVar maxAlign))
      = packedOffsets 0 ((sortSort (collect declared).1).map (scalarVar maxAlign)) ∧
    (abiSize ((sortSort (collect declared).1).map (scalarVar maxAlign)) (structAlign declared)
        ≤ maxInt →
      minSizeOf ⟨structAlign declared, sizeof, declared⟩
        = some (abiSize ((sortSort (collect declared).1).map (scalarVar maxAlign))
            (structAlign declared))) := by
  have hback : declared.map (fun v => scalarVar maxAlign (structField.mk v.name v.typeSize))
      = declared := by
    conv_rhs => rw [← List.map_id declared]
    apply List.map_congr_left
    intro v hv
    rw [id, scalarVar, ← (hscalar v hv).2]
  have hperm : ((sortSort (collect declared).1).map (scalarVar maxAlign)).Perm declared := by
    have h := (sortSort_perm (collect declared).1).map (scalarVar maxAlign)
    rw [collect_fst, List.map_map] at h
    rw [collect_fst]
    have hb : declared.map (scalarVar maxAlign ∘ fun v => structField.mk v.name v.typeSize)
        = declared := hback
    rw [hb] at h
    exact h
  have hpow : ∀ f ∈ sortSort (collect declared).1, ∃ k : Nat, f.size = 2 ^ k := by
    intro f hf
    have hf2 := (sortSort_perm _).mem_iff.1 hf
    rw [collect_fst] at hf2
    obtain ⟨v, hv, rfl⟩ := List.mem_map.1 hf2
    exact (hscalar v hv).1
  have h1 : ∀ v ∈ (sortSort (collect declared).1).map (scalarVar maxAlign),
      1 ≤ v.typeAlign ∧ v.typeAlign ∣ v.typeSize := by
    intro v hv
    obtain ⟨f, hf, rfl⟩ := List.mem_map.1 hv
    exact scalarVar_align_ok maxAlign f hmax (hpow f hf)
  have hp : ((sortSort (collect declared).1).map (scalarVar maxAlign)).Pairwise
      (fun v w => w.typeAlign ∣ v.typeAlign) := by
    rw [List.pairwise_map]
    refine (sortSort_arranged (collect declared).1).imp_of_mem ?_
    intro x y hx hy hxy
    exact scalarVar_align_dvd maxAlign x y hmax (hpow x hx) (hpow y hy)
      ((lessField_false_iff x y).1 hxy).1
  have hpk := abi_packed 0 _ h1 hp (fun v _ => Int.dvd_zero _)
  refine ⟨hperm, hpk.1, ?_⟩
  have hsize : ∀ v ∈ declared, 0 ≤ v.typeSize := by
    intro v hv
    obtain ⟨k, hk⟩ := (hscalar v hv).1
    rw [hk]; positivity
  have hab : abiSize ((sortSort (collect declared).1).map (scalarVar maxAlign))
      (structAlign declared)
      = alignUp (declared.map Var.typeSize).sum (structAlign declared) := by
    unfold abiSize
    rw [hpk.2, (hperm.map Var.typeSize).sum_eq, Int.zero_add]
  rw [hab]
  intro hfit
  exact minSizeOf_eq ⟨structAlign declared, sizeof, declared⟩ (one_le_structAlign declared)
    hsize hfit

/-! ## The properties at the sample records -/

/-- C1 at `sampleStruct` and the recommended order. -/
theorem minSize_le_abiSize_witness :
    (1 ≤ sampleStruct.alignof ∧ (∀ v ∈ sampleStruct.fields, 0 ≤ v.typeSize) ∧
      (∀ v ∈ sampleStruct.fields, 1 ≤ v.typeAlign) ∧ sampleOrder.Perm sampleStruct.fields) ∧
    ∃ m, minSizeOf sampleStruct = some m ∧
      m ≤ abiSize sampleOrder sampleStruct.alignof ∧
      m ≤ abiSize sampleStruct.fields sampleStruct.alignof ∧
      (abiEnd 0 sampleStruct.fields ≤ sampleStruct.sizeof →
        alignUp sampleStruct.sizeof sampleStruct.alignof ≤ maxInt →
        ∃ s, structSizeOf sampleStruct = some s ∧ m ≤ s) :=
  ⟨⟨by decide, by decide, by decide, by decide⟩,
    minSize_le_abiSize sampleStruct sampleOrder (by decide) (by decide) (by decide) (by decide)⟩

/-- C2 (amended) at `sampleStruct`. -/
theorem minSize_rounding_witness :
    (1 ≤ sampleStruct.alignof ∧ (∀ v ∈ sampleStruct.fields, 0 ≤ v.typeSize) ∧
      ∃ k, sampleStruct.alignof ∣ k ∧ (sampleStruct.fields.map Var.typeSize).sum ≤ k ∧
        k ≤ maxInt) ∧
    ∃ m, minSizeOf sampleStruct = some m ∧
      goRem m sampleStruct.alignof = some 0 ∧
      sampleStruct.alignof ∣ m ∧
      (sampleStruct.fields.map Var.typeSize).sum ≤ m ∧
      m < (sampleStruct.fields.map Var.typeSize).sum + sampleStruct.alignof ∧
      ∀ k, sampleStruct.alignof ∣ k → (sampleStruct.fields.map Var.typeSize).sum ≤ k → m ≤ k :=
  ⟨⟨by decide, by decide, ⟨16, ⟨2, by decide⟩, by decide, by decide⟩⟩,
    minSize_rounding sampleStruct (by decide) (by decide)
      ⟨16, ⟨2, by decide⟩, by decide, by decide⟩⟩

/-- C3 at the two orders of the sample record. -/
theorem minSize_perm_witness :
    sampleOrder.Perm sampleStruct.fields ∧
    minSizeOf ⟨8, 16, sampleOrder⟩ = minSizeOf ⟨8, 24, sampleStruct.fields⟩ :=
  ⟨by decide, (minSize_perm 8 16 24 sampleOrder sampleStruct.fields).1 (by decide)⟩

/-- C4 (amended) at `sampleStruct`. -/
theorem checkStruct_diagnose_witness :
    1 ≤ sampleStruct.alignof ∧
    ∃ structSize minSize, structSizeOf sampleStruct = some structSize ∧
      minSizeOf sampleStruct = some minSize ∧
      (sampleStruct.alignof ∣ sampleStruct.sizeof → structSize = sampleStruct.sizeof) ∧
      (minSize = structSize → checkStruct sampleStruct = some none) ∧
      (minSize < structSize → checkStruct sampleStruct = some (some
        ⟨minSize, structSize,
          sortSort (sampleStruct.fields.map (fun v => structField.mk v.name v.typeSize))⟩)) ∧
      (sampleStruct.alignof ∣ sampleStruct.sizeof → minSize = sampleStruct.sizeof →
        checkStruct sampleStruct = some none) ∧
      (sampleStruct.alignof ∣ sampleStruct.sizeof → minSize < sampleStruct.sizeof →
        checkStruct sampleStruct = some (some
          ⟨minSize, sampleStruct.sizeof,
            sortSort (sampleStruct.fields.map (fun v => structField.mk v.name v.typeSize))⟩)) ∧
      checkStruct ⟨8, 16, [⟨"x", 8, 8⟩, ⟨"y", 8, 8⟩]⟩ = some none ∧
      checkStruct ⟨8, 24, [⟨"a", 1, 1⟩, ⟨"b", 8, 8⟩, ⟨"c", 1, 1⟩]⟩
        = some (some ⟨16, 24, [⟨"b", 8⟩, ⟨"a", 1⟩, ⟨"c", 1⟩]⟩) ∧
      checkStruct ⟨8, 17, [⟨"a", 1, 1⟩, ⟨"b", 8, 8⟩, ⟨"c", 1, 1⟩]⟩
        = some (some ⟨16, 24, [⟨"b", 8⟩, ⟨"a", 1⟩, ⟨"c", 1⟩]⟩) :=
  ⟨by decide, checkStruct_diagnose sampleStruct (by decide)⟩

/-- C6 at the order C, B, A. -/
theorem sortSort_deterministic_witness :
    List.Perm [structField.mk "C" 8, ⟨"B", 4⟩, ⟨"A", 8⟩] [⟨"A", 8⟩, ⟨"B", 4⟩, ⟨"C", 8⟩] ∧
    sortSort [⟨"C", 8⟩, ⟨"B", 4⟩, ⟨"A", 8⟩] = [⟨"A", 8⟩, ⟨"C", 8⟩, ⟨"B", 4⟩] :=
  ⟨by decide, sortSort_deterministic.2.2.2.2.2 _ (by decide)⟩

/-- C7 (amended) at the oracle size 17 with alignment 8. -/
theorem structSize_rounds_oracle_size_witness :
    (1 ≤ (Struct.mk 8 17 sampleStruct.fields).alignof ∧
      (Struct.mk 8 17 sampleStruct.fields).alignof ≤ maxInt) ∧
    ∃ s, structSizeOf (Struct.mk 8 17 sampleStruct.fields) = some s ∧
      (s = (Struct.mk 8 17 sampleStruct.fields).sizeof ↔
        (Struct.mk 8 17 sampleStruct.fields).alignof ∣
          (Struct.mk 8 17 sampleStruct.fields).sizeof) ∧
      (0 ≤ (Struct.mk 8 17 sampleStruct.fields).sizeof →
        (∃ k, (Struct.mk 8 17 sampleStruct.fields).alignof ∣ k ∧
          (Struct.mk 8 17 sampleStruct.fields).sizeof ≤ k ∧ k ≤ maxInt) →
        (Struct.mk 8 17 sampleStruct.fields).alignof ∣ s ∧
        (Struct.mk 8 17 sampleStruct.fields).sizeof ≤ s ∧
        s < (Struct.mk 8 17 sampleStruct.fields).sizeof
          + (Struct.mk 8 17 sampleStruct.fields).alignof ∧
        ∀ k, (Struct.mk 8 17 sampleStruct.fields).alignof ∣ k →
          (Struct.mk 8 17 sampleStruct.fields).sizeof ≤ k → s ≤ k) :=
  ⟨⟨by decide, by decide⟩,
    structSize_rounds_oracle_size (Struct.mk 8 17 sampleStruct.fields) (by decide) (by decide)⟩

/-- C8 at alignment 8, oracle size 24 and the fields of the sample record. -/
theorem checkStruct_total_witness :
    (1 : Int) ≤ 8 ∧
    (goRem 24 8).isSome = true ∧
    (goRem (collect sampleStruct.fields).2 8).isSome = true ∧
    (structSizeOf ⟨8, 24, sampleStruct.fields⟩).isSome = true ∧
    (minSizeOf ⟨8, 24, sampleStruct.fields⟩).isSome = true ∧
    (checkStruct ⟨8, 24, sampleStruct.fields⟩).isSome = true ∧
    minSizeOf ⟨8, 24, []⟩ = some 0 ∧
    checkStruct ⟨8, 0, []⟩ = some none :=
  ⟨by decide, checkStruct_total 8 24 sampleStruct.fields (by decide)⟩

/-- C9 (amended) at the fields of the sample record with the maximal alignment 8. -/
theorem suggestedOrder_packs_witness :
    ((∃ k : Nat, (8 : Int) = 2 ^ k) ∧
      (∀ v ∈ sampleStruct.fields,
        (∃ k : Nat, v.typeSize = 2 ^ k) ∧ v.typeAlign = min v.typeSize 8)) ∧
    ((sortSort (collect sampleStruct.fields).1).map (scalarVar 8)).Perm sampleStruct.fields ∧
    abiOffsets 0 ((sortSort (collect sampleStruct.fields).1).map (scalarVar 8))
      = packedOffsets 0 ((sortSort (collect sampleStruct.fields).1).map (scalarVar 8)) ∧
    (abiSize ((sortSort (collect sampleStruct.fields).1).map (scalarVar 8))
        (structAlign sampleStruct.fields) ≤ maxInt →
      minSizeOf ⟨structAlign sampleStruct.fields, 24, sampleStruct.fields⟩
        = some (abiSize ((sortSort (collect sampleStruct.fields).1).map (scalarVar 8))
            (structAlign sampleStruct.fields))) :=
  have hscalar : ∀ v ∈ sampleStruct.fields,
      (∃ k : Nat, v.typeSize = 2 ^ k) ∧ v.typeAlign = min v.typeSize 8 := by
    intro v hv
    simp only [sampleStruct, List.mem_cons, List.mem_singleton, List.not_mem_nil, or_false] at hv
    rcases hv with rfl | rfl | rfl
    · exact ⟨⟨0, rfl⟩, by decide⟩
    · exact ⟨⟨3, rfl⟩, by decide⟩
    · exact ⟨⟨0, rfl⟩, by decide⟩
  ⟨⟨⟨3, rfl⟩, hscalar⟩, suggestedOrder_packs sampleStruct.fields 8 24 ⟨3, rfl⟩ hscalar⟩

/-- C10 (amended) at `sampleStruct` and its report. -/
theorem finding_saving_witness :
    (1 ≤ sampleStruct.alignof ∧ (∀ v ∈ sampleStruct.fields, 0 ≤ v.typeSize) ∧
      (sampleStruct.fields.map Var.typeSize).sum ≤ sampleStruct.sizeof ∧
      (∃ k, sampleStruct.alignof ∣ k ∧ sampleStruct.sizeof ≤ k ∧ k ≤ maxInt) ∧
      checkStruct sampleStruct
        = some (some ⟨16, 24, [⟨"b", 8⟩, ⟨"a", 1⟩, ⟨"c", 1⟩]⟩)) ∧
    (Finding.mk 16 24 [⟨"b", 8⟩, ⟨"a", 1⟩, ⟨"c", 1⟩]).minSize
      < (Finding.mk 16 24 [⟨"b", 8⟩, ⟨"a", 1⟩, ⟨"c", 1⟩]).structSize ∧
    ∃ k : Int, 0 < k ∧
      (Finding.mk 16 24 [⟨"b", 8⟩, ⟨"a", 1⟩, ⟨"c", 1⟩]).structSize
        - (Finding.mk 16 24 [⟨"b", 8⟩, ⟨"a", 1⟩, ⟨"c", 1⟩]).minSize = k * sampleStruct.alignof :=
  ⟨⟨by decide, by decide, by decide, ⟨24, ⟨3, by decide⟩, by decide, by decide⟩, by decide⟩,
    finding_saving sampleStruct ⟨16, 24, [⟨"b", 8⟩, ⟨"a", 1⟩, ⟨"c", 1⟩]⟩
      (by decide) (by decide) (by decide) ⟨24, ⟨3, by decide⟩, by decide, by decide⟩
      (by decide)⟩

end aligncheck
